import Mathlib

set_option maxHeartbeats 1000000

/-!
Verification of the CORD-19 search client's core components:
the text segmentation decoder (`formatTextWithSections`), the abstract
formatter (`formatAbstract`), the search session controller
(`handleSearch`, `handleSelectDocument`, `handleBackToResults`) and the
suggestion controller (the SearchBar debounce effect).

Strings are modelled as `List Char`; absent values (`undefined`) as
`Option`; the JavaScript regular-expression scans of the decoder and the
formatter are modelled by explicit left-to-right character scans with the
same semantics (leftmost match, non-greedy capture, `.` not matching a
line terminator, `\b` word boundaries).
-/

/-- JavaScript whitespace: the characters the regex class `\s` matches and
`String.prototype.trim` removes (ASCII whitespace, NBSP, the Unicode
space separators, the line and paragraph separators and the BOM). -/
def jsWhite (c : Char) : Bool :=
  c == ' ' || c == '\t' || c == '\n' || c.toNat == 11 || c.toNat == 12 || c == '\r' ||
  c.toNat == 0xa0 || c.toNat == 0x1680 ||
  (0x2000 ≤ c.toNat && c.toNat ≤ 0x200a) ||
  c.toNat == 0x2028 || c.toNat == 0x2029 || c.toNat == 0x202f ||
  c.toNat == 0x205f || c.toNat == 0x3000 || c.toNat == 0xfeff

/-- JavaScript `String.prototype.trim` on a character list. -/
def trimJS (l : List Char) : List Char :=
  ((l.dropWhile jsWhite).reverse.dropWhile jsWhite).reverse

/-- A decoded unit of a document body: a section heading or a paragraph,
in document order. -/
inductive Segment where
  | Heading : List Char → Segment
  | Paragraph : List Char → Segment
deriving DecidableEq

/-- The text a segment holds. -/
def segText : Segment → List Char
  | .Heading t => t
  | .Paragraph t => t

/-- The opening section marker of the document body encoding. -/
def SM : List Char := "##SECTION_START##".data

/-- The closing section marker of the document body encoding. -/
def EM : List Char := "##SECTION_END##".data

/-- The line terminators that the JavaScript regex `.` does not match. -/
def isLineTerm (c : Char) : Bool :=
  c == '\n' || c == '\r' || c.toNat == 0x2028 || c.toNat == 0x2029

/-- The non-greedy tail of the marker regex: scanning forward from a
position just after an opening marker, capture the shortest run of
non-line-terminator characters followed by the closing marker. Returns
the capture and the text after the closing marker. -/
def findEnd : List Char → Option (List Char × List Char)
  | [] => none
  | c :: cs =>
    if EM.isPrefixOf (c :: cs) then some ([], (c :: cs).drop EM.length)
    else if isLineTerm c then none
    else
      match findEnd cs with
      | some (nm, r) => some (c :: nm, r)
      | none => none

/-- One step of the global regex scan
`/##SECTION_START##(.*?)##SECTION_END##/g`: the leftmost full match.
Returns the text before the match, the captured name and the text after
the match. Positions where the opening marker occurs but no closing
marker is reachable (`findEnd` fails) are skipped, as the regex engine
does. -/
def findMatch : List Char → Option (List Char × List Char × List Char)
  | [] => none
  | c :: cs =>
    if SM.isPrefixOf (c :: cs) then
      match findEnd ((c :: cs).drop SM.length) with
      | some (nm, r) => some ([], nm, r)
      | none =>
        match findMatch cs with
        | some (p, nm, r) => some (c :: p, nm, r)
        | none => none
    else
      match findMatch cs with
      | some (p, nm, r) => some (c :: p, nm, r)
      | none => none

/-- `isPrefixOf` decides the prefix order. -/
theorem ispOf_iff : ∀ (p l : List Char), p.isPrefixOf l = true ↔ p <+: l
  | [], l => by
    simpa [List.isPrefixOf] using ⟨l, rfl⟩
  | _ :: _, [] => by
    simp [List.isPrefixOf]
  | a :: p, b :: l => by
    simp [List.isPrefixOf, ispOf_iff p l, List.cons_prefix_cons, And.comm]

/-- A successful `findEnd` splits its input at the closing marker. -/
theorem findEnd_split : ∀ (v nm r : List Char), findEnd v = some (nm, r) →
    v = nm ++ EM ++ r
  | [], nm, r => by simp [findEnd]
  | c :: cs, nm, r => by
    simp only [findEnd]
    split
    · next hp =>
      rcases (ispOf_iff EM (c :: cs)).mp hp with ⟨t, ht⟩
      intro h
      obtain ⟨rfl, rfl⟩ : nm = [] ∧ (c :: cs).drop EM.length = r := by
        simpa using h
      rw [← ht, List.nil_append, List.drop_left]
    · split
      · intro h; cases h
      · split
        · next nm2 r2 hrec =>
          intro h
          obtain ⟨rfl, rfl⟩ : nm = c :: nm2 ∧ r = r2 := by
            simpa using h.symm
          simpa using findEnd_split cs nm2 r (by simpa using hrec)
        · intro h; cases h

/-- A successful `findMatch` splits its input at the matched pair. -/
theorem findMatch_split : ∀ (w p n r : List Char), findMatch w = some (p, n, r) →
    w = p ++ SM ++ n ++ EM ++ r
  | [], p, n, r => by simp [findMatch]
  | c :: cs, p, n, r => by
    simp only [findMatch]
    split
    · next hp =>
      rcases (ispOf_iff SM (c :: cs)).mp hp with ⟨t, ht⟩
      split
      · next nm2 r2 hfe =>
        intro h
        obtain ⟨rfl, rfl, rfl⟩ : p = [] ∧ n = nm2 ∧ r = r2 := by
          simpa using h.symm
        have hdrop : (c :: cs).drop SM.length = t := by rw [← ht, List.drop_left]
        have := findEnd_split _ _ _ hfe
        rw [hdrop] at this
        rw [← ht, this]
        simp
      · split
        · next p2 nm2 r2 hrec =>
          intro h
          obtain ⟨rfl, rfl, rfl⟩ : p = c :: p2 ∧ n = nm2 ∧ r = r2 := by
            simpa using h.symm
          simpa using findMatch_split cs p2 n r (by simpa using hrec)
        · intro h; cases h
    · split
      · next p2 nm2 r2 hrec =>
        intro h
        obtain ⟨rfl, rfl, rfl⟩ : p = c :: p2 ∧ n = nm2 ∧ r = r2 := by
          simpa using h.symm
        simpa using findMatch_split cs p2 n r (by simpa using hrec)
      · intro h; cases h

/-- The remainder after a match is strictly shorter than the input. -/
theorem findMatch_lt (w p n r : List Char) (h : findMatch w = some (p, n, r)) :
    r.length < w.length := by
  have := findMatch_split w p n r h
  subst this
  simp [SM, EM]
  omega

/-- The global regex scan driver, with explicit fuel so that the
recursion is structural: each found match consumes at least the two
markers, so fuel equal to the input length never runs out. -/
def scanSectionsF : Nat → List Char → List (List Char × List Char) × List Char
  | 0, s => ([], s)
  | fuel + 1, s =>
    match findMatch s with
    | none => ([], s)
    | some (p, n, r) =>
      let q := scanSectionsF fuel r
      ((p, n) :: q.1, q.2)

/-- The global regex scan: all matches in order, each as the gap before it
and its captured name, together with the text after the last match. -/
def scanSections (s : List Char) : List (List Char × List Char) × List Char :=
  scanSectionsF s.length s

/-- Fuel beyond the input length is irrelevant to the scan. -/
theorem scanSectionsF_irrel : ∀ (f1 f2 : Nat) (s : List Char), s.length ≤ f1 →
    s.length ≤ f2 → scanSectionsF f1 s = scanSectionsF f2 s
  | 0, f2, s, h1, _ => by
    obtain rfl : s = [] := List.length_eq_zero.mp (Nat.le_zero.mp h1)
    cases f2 with
    | zero => rfl
    | succ k => rfl
  | f1 + 1, 0, s, _, h2 => by
    obtain rfl : s = [] := List.length_eq_zero.mp (Nat.le_zero.mp h2)
    rfl
  | f1 + 1, f2 + 1, s, h1, h2 => by
    simp only [scanSectionsF]
    cases hm : findMatch s with
    | none => rfl
    | some x =>
      obtain ⟨p, n, r⟩ := x
      have hlt := findMatch_lt s p n r hm
      show ((p, n) :: (scanSectionsF f1 r).1, (scanSectionsF f1 r).2)
        = ((p, n) :: (scanSectionsF f2 r).1, (scanSectionsF f2 r).2)
      rw [scanSectionsF_irrel f1 f2 r (by omega) (by omega)]

theorem scanSections_none {s : List Char} (h : findMatch s = none) :
    scanSections s = ([], s) := by
  unfold scanSections
  cases hl : s.length with
  | zero => rfl
  | succ k => simp [scanSectionsF, h]

theorem scanSections_some {s p n r : List Char} (h : findMatch s = some (p, n, r)) :
    scanSections s = ((p, n) :: (scanSections r).1, (scanSections r).2) := by
  have hlen := findMatch_lt s p n r h
  unfold scanSections
  cases hl : s.length with
  | zero => omega
  | succ k =>
    simp only [scanSectionsF, h]
    rw [scanSectionsF_irrel k r.length r (by omega) (Nat.le_refl _)]

/-- `String.prototype.includes`: does `pat` occur as a contiguous run. -/
def hasSub (pat : List Char) : List Char → Bool
  | [] => pat.isPrefixOf []
  | c :: cs => pat.isPrefixOf (c :: cs) || hasSub pat cs

/-- The heading the viewer pushes for one marker: the captured name is
trimmed when stored and an empty name yields no heading. -/
def headOpt (n : List Char) : List Segment :=
  if trimJS n = [] then [] else [Segment.Heading (trimJS n)]

/-- The paragraph the viewer pushes for the content after a marker:
trimmed, omitted when empty. -/
def paraOpt (g : List Char) : List Segment :=
  if trimJS g = [] then [] else [Segment.Paragraph (trimJS g)]

/-- The viewer's second pass over the matches: for the section named `n`
followed by the matches `rest` and by the text `trail` after the last
match, emit the heading, then the paragraph of the content running to the
next marker (or to the end of the string). -/
def sectionParts : List Char → List (List Char × List Char) → List Char → List Segment
  | n, [], trail => headOpt n ++ paraOpt trail
  | n, (g, n2) :: rest, trail => headOpt n ++ paraOpt g ++ sectionParts n2 rest trail

/-- `formatTextWithSections` of DocumentViewer.tsx: absent or empty text
gives no segments; text without the opening marker is one verbatim
paragraph; otherwise the marker matches are scanned, headings and trimmed
contents are emitted (the text before the first match first), and if
nothing at all was emitted the whole text is one verbatim paragraph. -/
def formatTextWithSections (text : Option (List Char)) : List Segment :=
  match text with
  | none => []
  | some t =>
    if t = [] then []
    else if hasSub SM t = false then [Segment.Paragraph t]
    else
      match scanSections t with
      | ([], _) => [Segment.Paragraph t]
      | ((g0, n0) :: rest, trail) =>
        let parts := paraOpt g0 ++ sectionParts n0 rest trail
        if parts = [] then [Segment.Paragraph t] else parts

/-- JS `\w`: ASCII letters, digits and the underscore. -/
def isWordChar (c : Char) : Bool :=
  ('a' ≤ c && c ≤ 'z') || ('A' ≤ c && c ≤ 'Z') || ('0' ≤ c && c ≤ '9') || c == '_'

/-- Case-insensitive strip of `pat` from the front of `l` (ASCII folding,
as the regex `i` flag acts on these ASCII keywords): the matched original
characters and the rest. -/
def stripCI : List Char → List Char → Option (List Char × List Char)
  | [], l => some ([], l)
  | _ :: _, [] => none
  | p :: ps, c :: cs =>
    if p.toLower == c.toLower then
      match stripCI ps cs with
      | some (m, r) => some (c :: m, r)
      | none => none
    else none

/-- One keyword alternative at the current position: it must match
case-insensitively and be followed by a word boundary (the boundary
before the position is the caller's concern). -/
def tryKw (pat l : List Char) : Option (List Char × List Char) :=
  match stripCI pat l with
  | some (m, r) =>
    match r with
    | [] => some (m, r)
    | c :: _ => if isWordChar c then none else some (m, r)
  | none => none

/-- The alternation `(background|methods|results|conclusion|introduction)`,
in the regex's order. -/
def kwAlternatives : List (List Char) :=
  ["background".data, "methods".data, "results".data, "conclusion".data,
   "introduction".data]

/-- First alternative that matches at the current position. -/
def firstKw : List (List Char) → List Char → Option (List Char × List Char)
  | [], _ => none
  | p :: ps, l =>
    match tryKw p l with
    | some x => some x
    | none => firstKw ps l

def matchKwAt (l : List Char) : Option (List Char × List Char) :=
  firstKw kwAlternatives l

/-- A successful `stripCI` splits its input, consuming one character per
pattern character. -/
theorem stripCI_split : ∀ (p l m r : List Char), stripCI p l = some (m, r) →
    l = m ++ r ∧ m.length = p.length
  | [], l, m, r => by
    intro h
    obtain ⟨rfl, rfl⟩ : m = [] ∧ l = r := by simpa [stripCI] using h
    simp
  | _ :: _, [], m, r => by simp [stripCI]
  | p :: ps, c :: cs, m, r => by
    simp only [stripCI]
    split
    · split
      · next m2 r2 hrec =>
        intro h
        obtain ⟨rfl, rfl⟩ : m = c :: m2 ∧ r = r2 := by simpa using h.symm
        have := stripCI_split ps cs m2 r hrec
        simp [this.1, this.2]
      · intro h; cases h
    · intro h; cases h

theorem tryKw_split (p l m r : List Char) (h : tryKw p l = some (m, r)) :
    l = m ++ r ∧ m.length = p.length := by
  unfold tryKw at h
  cases hs : stripCI p l with
  | none => rw [hs] at h; cases h
  | some x =>
    obtain ⟨m2, r2⟩ := x
    rw [hs] at h
    have hsp := stripCI_split p l m2 r2 hs
    cases r2 with
    | nil =>
      obtain ⟨rfl, rfl⟩ : m = m2 ∧ r = [] := by simpa using h.symm
      simpa using hsp
    | cons c cs2 =>
      cases hw : isWordChar c with
      | true => simp [hw] at h
      | false =>
        simp only [hw] at h
        obtain ⟨rfl, rfl⟩ : m = m2 ∧ r = c :: cs2 := by simpa using h.symm
        exact hsp

theorem firstKw_split : ∀ (ps : List (List Char)) (l m r : List Char),
    firstKw ps l = some (m, r) → l = m ++ r ∧ ∃ p ∈ ps, m.length = p.length
  | [], l, m, r => by simp [firstKw]
  | p :: ps, l, m, r => by
    simp only [firstKw]
    split
    · next x hx =>
      intro h
      obtain rfl : x = (m, r) := by simpa using h
      have := tryKw_split p l m r hx
      exact ⟨this.1, p, by simp, this.2⟩
    · intro h
      have := firstKw_split ps l m r h
      exact ⟨this.1, this.2.imp fun q hq => ⟨by simp [hq.1], hq.2⟩⟩

theorem matchKwAt_lt (l m r : List Char) (h : matchKwAt l = some (m, r)) :
    r.length < l.length := by
  obtain ⟨heq, p, hp, hlen⟩ := firstKw_split kwAlternatives l m r h
  have hpos : 0 < p.length := by
    fin_cases hp <;> decide
  subst heq
  simp only [List.length_append]
  omega

/-- The keyword pass of `formatAbstract`, with explicit fuel so that the
recursion is structural (each step consumes at least one character, so
fuel equal to the input length never runs out): the global
case-insensitive replacement of
`\b(background|methods|results|conclusion|introduction)\b` by
`'\n\n$1'`. `prevWord` says whether the character before the current
position is a word character (no boundary there when it is). -/
def insertBreaksF : Nat → Bool → List Char → List Char
  | 0, _, _ => []
  | _ + 1, _, [] => []
  | fuel + 1, prevWord, c :: cs =>
    if prevWord then c :: insertBreaksF fuel (isWordChar c) cs
    else
      match matchKwAt (c :: cs) with
      | some (m, r) => '\n' :: '\n' :: (m ++ insertBreaksF fuel true r)
      | none => c :: insertBreaksF fuel (isWordChar c) cs

def insertBreaks (prevWord : Bool) (l : List Char) : List Char :=
  insertBreaksF l.length prevWord l

/-- Fuel beyond the input length is irrelevant to the keyword pass. -/
theorem insertBreaksF_irrel : ∀ (f1 f2 : Nat) (b : Bool) (l : List Char), l.length ≤ f1 →
    l.length ≤ f2 → insertBreaksF f1 b l = insertBreaksF f2 b l
  | 0, f2, b, l, h1, _ => by
    obtain rfl : l = [] := List.length_eq_zero.mp (Nat.le_zero.mp h1)
    cases f2 with
    | zero => rfl
    | succ k => rfl
  | f1 + 1, 0, b, l, _, h2 => by
    obtain rfl : l = [] := List.length_eq_zero.mp (Nat.le_zero.mp h2)
    rfl
  | f1 + 1, f2 + 1, b, [], _, _ => rfl
  | f1 + 1, f2 + 1, b, c :: cs, h1, h2 => by
    simp only [List.length_cons] at h1 h2
    simp only [insertBreaksF]
    cases b with
    | true =>
      rw [if_pos rfl, if_pos rfl,
        insertBreaksF_irrel f1 f2 (isWordChar c) cs (by omega) (by omega)]
    | false =>
      rw [if_neg (by decide), if_neg (by decide)]
      cases hm : matchKwAt (c :: cs) with
      | none => rw [insertBreaksF_irrel f1 f2 (isWordChar c) cs (by omega) (by omega)]
      | some x =>
        obtain ⟨m, r⟩ := x
        have hlt := matchKwAt_lt (c :: cs) m r hm
        simp only [List.length_cons] at hlt
        show '\n' :: '\n' :: (m ++ insertBreaksF f1 true r)
          = '\n' :: '\n' :: (m ++ insertBreaksF f2 true r)
        rw [insertBreaksF_irrel f1 f2 true r (by omega) (by omega)]

/-- The whitespace pass of `formatAbstract`: the global replacement of
`\s+` by one space, as a one-state scan (`prevWS` says whether the
previous character was whitespace, i.e. whether a run is already open:
the first character of each whitespace run becomes the one space). -/
def collapseAux : Bool → List Char → List Char
  | _, [] => []
  | prevWS, c :: cs =>
    if jsWhite c then (if prevWS then [] else [' ']) ++ collapseAux true cs
    else c :: collapseAux false cs

def collapseWS (l : List Char) : List Char := collapseAux false l

/-- `formatAbstract` of DocumentViewer.tsx: absent or empty input gives
the empty string; otherwise the keyword pass runs first, then every
whitespace run is replaced by a single space, then the ends are
trimmed. -/
def formatAbstract (abstract : Option (List Char)) : List Char :=
  match abstract with
  | none => []
  | some a => if a = [] then [] else trimJS (collapseWS (insertBreaks false a))

/-- JavaScript `String.prototype.trim` on a `String`. -/
def trimS (s : String) : String := ⟨trimJS s.data⟩

/-- A ranked result item (types.ts `SearchResult`). The numeric score is
carried opaquely: no controller computes with it. -/
structure SearchResult where
  doc_id : String
  score : Int
  title : Option String
  authors : Option String
  journal : Option String
  publish_time : Option String
  abstract : Option String
deriving DecidableEq

/-- types.ts `SearchResponse`: the body a successful search resolves
with. `query` is the echoed query, "" standing for an absent field
(JavaScript `||` treats both alike). -/
structure SearchResponse where
  results : Option (List SearchResult)
  total : Option Nat
  query : String
deriving DecidableEq

/-- Document metadata bag (types.ts `Document.metadata`). -/
structure DocMetadata where
  title : Option String
  authors : Option String
  journal : Option String
  publish_time : Option String
deriving DecidableEq

/-- types.ts `Reference`. -/
structure Reference where
  ref_id : String
  bibref_id : String
  title : Option String
  authors : Option String
  year : Option Int
  venue : Option String
  volume : Option String
  pages : Option String
  issn : Option String
deriving DecidableEq

/-- types.ts `Document`. -/
structure Document where
  paper_id : String
  metadata : DocMetadata
  abstract : Option String
  sections : Option String
  text : Option String
  references : Option (List Reference)
deriving DecidableEq

/-- An axios error as App.tsx reads it: the HTTP status of the response
when one was received (`error.response?.status`), and the error message
("" standing for an absent `error.message`). -/
structure APIError where
  status : Option Nat
  message : String
deriving DecidableEq

/-- How the awaited search settles. -/
inductive SearchOutcome where
  | ok : SearchResponse → SearchOutcome
  | err : APIError → SearchOutcome
deriving DecidableEq

/-- How the awaited document fetch settles. -/
inductive DocOutcome where
  | ok : Document → DocOutcome
  | err : DocOutcome
deriving DecidableEq

/-- The App.tsx component state. -/
structure AppState where
  query : String
  results : List SearchResult
  loading : Bool
  selectedDoc : Option Document
  showDocument : Bool
  totalResults : Nat
deriving DecidableEq

/-- A search request the controller issues (`searchAPI(query, 20)`). -/
structure SearchRequest where
  query : String
  limit : Nat
deriving DecidableEq

/-- `handleSearch` of App.tsx as a state transition: given the submitted
string and the way the awaited request settles, the final state, the
alert surfaced (if any) and the requests issued. An empty trimmed query
clears results, total and query and returns before any request; otherwise
the state setters of the success, failure and `finally` blocks are
applied in the source's order. -/
def handleSearch (st : AppState) (searchQuery : String) (outcome : SearchOutcome) :
    AppState × Option String × List SearchRequest :=
  if trimS searchQuery = "" then
    ({ st with results := [], totalResults := 0, query := "" }, none, [])
  else
    let requested : List SearchRequest := [{ query := trimS searchQuery, limit := 20 }]
    match outcome with
    | .ok r =>
      ({ st with loading := false,
                 results := r.results.getD [],
                 totalResults := r.total.getD 0,
                 query := if r.query = "" then trimS searchQuery else r.query },
       none, requested)
    | .err e =>
      ({ st with loading := false, results := [], totalResults := 0,
                 query := trimS searchQuery },
       some (if e.status = some 503 then
               "Search engine is not ready. Please check if the backend server is running and initialized."
             else if e.status = some 404 then
               "Backend API not found. Please ensure the backend server is running on port 8000."
             else
               "Search failed: " ++ (if e.message = "" then "Unknown error" else e.message)),
       requested)

/-- `handleSelectDocument` of App.tsx: fetch the document, hold it and
switch to document view; on failure surface an alert and stay in results
mode. The loading flag is set for the await and reset in `finally`. -/
def handleSelectDocument (st : AppState) (outcome : DocOutcome) : AppState × Option String :=
  match outcome with
  | .ok d => ({ st with loading := false, selectedDoc := some d, showDocument := true }, none)
  | .err => ({ st with loading := false }, some "Error loading document. Please try again.")

/-- `handleBackToResults` of App.tsx. -/
def handleBackToResults (st : AppState) : AppState :=
  { st with showDocument := false, selectedDoc := none }

/-- The SearchBar component state, with two pieces of bookkeeping the
component keeps implicitly: `pendingTimer` is the debounce timer and the
prefix its callback closed over, `inFlight` the prefixes of issued
autocomplete calls awaiting a response, and `commits` a log, newest
first, of each committed suggestion set's originating prefix next to the
trimmed input value current at commit time. -/
structure BarState where
  query : List Char
  suggestions : List (List Char)
  showSuggestions : Bool
  isLoadingSuggestions : Bool
  pendingTimer : Option (List Char)
  inFlight : List (List Char)
  commits : List (List Char × List Char)
deriving DecidableEq

/-- The SearchBar events: an input change (the debounce effect re-runs),
the debounce timer elapsing, and an in-flight autocomplete call settling
(successfully or not). -/
inductive BarEvent where
  | input : List Char → BarEvent
  | fire : BarEvent
  | respond : List Char → List (List Char) → Bool → BarEvent
deriving DecidableEq

def initBar : BarState :=
  { query := [], suggestions := [], showSuggestions := false,
    isLoadingSuggestions := false, pendingTimer := none, inFlight := [], commits := [] }

/-- One step of the SearchBar debounce machinery (SearchBar lines 29-62).
`input q`: the effect's cleanup clears the pending timer; then, when the
trimmed value is shorter than 2, suggestions are cleared and hidden and
nothing is scheduled, else the loading flag is set and a fetch for the
trimmed value is scheduled. `fire`: a scheduled fetch goes in flight.
`respond p results ok`: an in-flight call for prefix `p` settles; on
success the suggestion list is replaced and shown unconditionally (the
callback performs no staleness comparison), on failure the list is
cleared; either way the loading flag is reset. -/
def barStep (st : BarState) : BarEvent → BarState
  | .input q =>
    let st1 := { st with query := q, pendingTimer := none }
    if (trimJS q).length < 2 then { st1 with suggestions := [], showSuggestions := false }
    else { st1 with isLoadingSuggestions := true, pendingTimer := some (trimJS q) }
  | .fire =>
    match st.pendingTimer with
    | none => st
    | some p => { st with pendingTimer := none, inFlight := p :: st.inFlight }
  | .respond p results ok =>
    if p ∈ st.inFlight then
      let st1 := { st with inFlight := st.inFlight.erase p }
      if ok then
        { st1 with suggestions := results, showSuggestions := true,
                   isLoadingSuggestions := false,
                   commits := (p, trimJS st.query) :: st.commits }
      else { st1 with suggestions := [], isLoadingSuggestions := false }
    else st

/-- A SearchBar history: the state after a sequence of events from the
initial state. -/
def runBar (evs : List BarEvent) : BarState := evs.foldl barStep initBar

/-- Rebuild a body string from a marker decomposition: the gaps, names
and markers in order, with `tr` the text after the last marker. -/
def mkText : List (List Char × List Char) → List Char → List Char
  | [], tr => tr
  | (g, n) :: rest, tr => g ++ SM ++ n ++ EM ++ mkText rest tr

/-- The non-marker characters of a decomposition: gaps and names in
order, markers erased. -/
def erasedChain : List (List Char × List Char) → List Char → List Char
  | [], tr => tr
  | (g, n) :: rest, tr => g ++ n ++ erasedChain rest tr

/-- The non-marker characters of a body string, in order: what remains
of it when the matched marker occurrences are erased. -/
def eraseMarkers (t : List Char) : List Char :=
  erasedChain (scanSections t).1 (scanSections t).2

/-- The texts of a segment sequence, concatenated in order. -/
def concatTexts (l : List Segment) : List Char :=
  (l.map segText).flatten

/-- The segments the spec prescribes (§4.4) for a body made of the marker
decomposition `ps`/`tr`: first the text before the first marker as a
paragraph when non-empty after trimming, then for each marker, in order,
the heading bearing its non-empty (trimmed) name followed by the
paragraph of the text running from the end of that marker to the start of
the next one (or to the end of the string), trimmed and omitted when
empty. -/
def claimSegments : List (List Char × List Char) → List Char → List Segment
  | [], _ => []
  | (g, n) :: rest, tr => paraOpt g ++ sectionParts n rest tr

/-- No character of `n` is a line terminator (so the regex `.` can cross
all of it). -/
def noLT (n : List Char) : Prop := ∀ c ∈ n, isLineTerm c = false

/-- No occurrence of `pat` starts within the first `m` positions of `l`. -/
def noOccBefore (pat l : List Char) (m : Nat) : Prop :=
  ∀ k < m, ¬ pat <+: l.drop k

/-- No decodable marker pair occurs in `t`: it cannot be split as
`a ++ SM ++ n ++ EM ++ b` with a line-terminator-free name `n`. -/
def NoPairIn (t : List Char) : Prop :=
  ¬ ∃ a n b, t = a ++ SM ++ n ++ EM ++ b ∧ noLT n

/-- A well-formed marker decomposition, the reading §4.4 presumes: each
gap hides no opening marker before the intended one, each name is free of
line terminators and of premature closing markers, and nothing decodable
follows the last marker. -/
def WFsections : List (List Char × List Char) → List Char → Prop
  | [], tr => NoPairIn tr
  | (g, n) :: rest, tr =>
    noOccBefore SM (g ++ SM ++ n ++ EM ++ mkText rest tr) g.length ∧
    noLT n ∧
    noOccBefore EM (n ++ EM ++ mkText rest tr) n.length ∧
    WFsections rest tr

/-- The invariant the debounce guard maintains: a scheduled fetch's
prefix always equals the current trimmed input (any keystroke cancels the
scheduled fetch and reschedules for the new value). -/
def pendingMatchesInput (st : BarState) : Prop :=
  ∀ p, st.pendingTimer = some p → p = trimJS st.query

/-- A prefix extends along an appended tail. -/
theorem pfx_app (l t : List Char) : l <+: l ++ t := ⟨t, rfl⟩

/-- A prefix of a list is a prefix of any extension of it. -/
theorem pfx_ext {x y : List Char} (h : x <+: y) (z : List Char) : x <+: y ++ z := by
  obtain ⟨t, rfl⟩ := h
  exact ⟨t ++ z, by simp⟩

/-- Dropping respects the prefix order. -/
theorem pfx_drop {x y : List Char} (h : x <+: y) (k : Nat) : x.drop k <+: y.drop k := by
  obtain ⟨t, rfl⟩ := h
  rw [List.drop_append_eq_append_drop]
  exact ⟨t.drop (k - x.length), rfl⟩

/-- `isPrefixOf` is true on an immediate extension. -/
theorem ispOf_app (p t : List Char) : p.isPrefixOf (p ++ t) = true :=
  (ispOf_iff p (p ++ t)).mpr (pfx_app p t)

/-- A Boolean-false prefix test from the Prop side. -/
theorem ispOf_false {p l : List Char} (h : ¬ p <+: l) : p.isPrefixOf l = false := by
  cases hb : p.isPrefixOf l with
  | false => rfl
  | true => exact absurd ((ispOf_iff p l).mp hb) h

theorem findEnd_cons (c : Char) (cs : List Char) :
    findEnd (c :: cs) =
      if EM.isPrefixOf (c :: cs) then some ([], (c :: cs).drop EM.length)
      else if isLineTerm c then none
      else
        match findEnd cs with
        | some (nm, r) => some (c :: nm, r)
        | none => none := rfl

theorem findMatch_cons (c : Char) (cs : List Char) :
    findMatch (c :: cs) =
      if SM.isPrefixOf (c :: cs) then
        match findEnd ((c :: cs).drop SM.length) with
        | some (nm, r) => some ([], nm, r)
        | none =>
          match findMatch cs with
          | some (p, nm, r) => some (c :: p, nm, r)
          | none => none
      else
        match findMatch cs with
        | some (p, nm, r) => some (c :: p, nm, r)
        | none => none := rfl

/-- `findEnd` right at the closing marker. -/
theorem findEnd_atEM (b : List Char) : findEnd (EM ++ b) = some ([], b) := by
  obtain ⟨c, cs, hcs⟩ : ∃ c cs, EM ++ b = c :: cs := by
    cases h : EM ++ b with
    | nil => exact absurd (congrArg List.length h) (by simp [EM])
    | cons c cs => exact ⟨c, cs, rfl⟩
  rw [hcs, findEnd_cons, ← hcs, ispOf_app EM b]
  simp [List.drop_left]

/-- `findEnd` on a name free of line terminators and of premature closing
markers finds exactly that name. -/
theorem findEnd_exact : ∀ (n b : List Char), noLT n →
    (∀ k < n.length, ¬ EM <+: (n ++ EM ++ b).drop k) →
    findEnd (n ++ EM ++ b) = some (n, b)
  | [], b, _, _ => by simpa using findEnd_atEM b
  | a :: n2, b, hLT, hNE => by
    have hshape : (a :: n2) ++ EM ++ b = a :: (n2 ++ EM ++ b) := by simp
    rw [hshape, findEnd_cons]
    have h0 : ¬ EM <+: a :: (n2 ++ EM ++ b) := by
      have := hNE 0 (by simp)
      simpa [hshape] using this
    have hlt : isLineTerm a = false := hLT a (by simp)
    have ih := findEnd_exact n2 b (fun c hc => hLT c (by simp [hc]))
      (fun k hk => by
        have := hNE (k + 1) (by simpa using Nat.succ_lt_succ hk)
        simpa [hshape, List.drop_succ_cons] using this)
    simp only [List.append_assoc] at h0 ih
    simp [h0, hlt, ih]

/-- `findMatch` right at an opening marker defers to `findEnd`. -/
theorem findMatch_atSM (v n b : List Char) (hfe : findEnd v = some (n, b)) :
    findMatch (SM ++ v) = some ([], n, b) := by
  obtain ⟨c, cs, hcs⟩ : ∃ c cs, SM ++ v = c :: cs := by
    cases h : SM ++ v with
    | nil => exact absurd (congrArg List.length h) (by simp [SM])
    | cons c cs => exact ⟨c, cs, rfl⟩
  rw [hcs, findMatch_cons, ← hcs, ispOf_app SM v]
  simp [List.drop_left, hfe]

/-- Scanning across a gap that hides no opening marker only lengthens the
pre-match text. -/
theorem findMatch_gap : ∀ (g w : List Char), (∀ k < g.length, ¬ SM <+: (g ++ w).drop k) →
    findMatch (g ++ w) = (findMatch w).map (fun x => (g ++ x.1, x.2.1, x.2.2))
  | [], w, _ => by
    cases hm : findMatch w with
    | none => simp [hm]
    | some x => obtain ⟨p, n, r⟩ := x; simp [hm]
  | a :: g2, w, hNS => by
    have hshape : (a :: g2) ++ w = a :: (g2 ++ w) := by simp
    rw [hshape, findMatch_cons]
    have h0 : ¬ SM <+: a :: (g2 ++ w) := by
      have := hNS 0 (by simp)
      simpa [hshape] using this
    have ih := findMatch_gap g2 w (fun k hk => by
      have := hNS (k + 1) (by simpa using Nat.succ_lt_succ hk)
      simpa [hshape, List.drop_succ_cons] using this)
    rw [ispOf_false h0]
    simp only [Bool.false_eq_true, if_false]
    rw [ih]
    cases hm : findMatch w with
    | none => simp
    | some x => obtain ⟨p, n, r⟩ := x; simp

/-- A line-terminator-free name followed by the closing marker is always
found by `findEnd` (not necessarily with that exact split). -/
theorem findEnd_isSome_pair : ∀ (n b : List Char), noLT n →
    (findEnd (n ++ EM ++ b)).isSome = true
  | [], b, _ => by simp [findEnd_atEM]
  | a :: n2, b, hLT => by
    rw [show (a :: n2) ++ EM ++ b = a :: (n2 ++ EM ++ b) by simp, findEnd_cons]
    by_cases hp : EM <+: a :: (n2 ++ (EM ++ b))
    · simp [hp]
    · have hlt : isLineTerm a = false := hLT a (by simp)
      have ih := findEnd_isSome_pair n2 b (fun c hc => hLT c (by simp [hc]))
      obtain ⟨x, hx⟩ := Option.isSome_iff_exists.mp ih
      obtain ⟨nm, r⟩ := x
      simp only [List.append_assoc] at hx
      simp [hp, hlt, hx]

/-- Any decodable pair in the input makes `findMatch` succeed. -/
theorem findMatch_isSome_pair : ∀ (a n b : List Char), noLT n →
    (findMatch (a ++ SM ++ n ++ EM ++ b)).isSome = true
  | [], n, b, hLT => by
    have h := findEnd_isSome_pair n b hLT
    obtain ⟨x, hx⟩ := Option.isSome_iff_exists.mp h
    obtain ⟨nm, r⟩ := x
    have hm := findMatch_atSM (n ++ EM ++ b) nm r hx
    rw [show ([] : List Char) ++ SM ++ n ++ EM ++ b = SM ++ (n ++ EM ++ b) by simp]
    simp only [List.append_assoc] at hm
    simp [hm]
  | c :: a2, n, b, hLT => by
    rw [show (c :: a2) ++ SM ++ n ++ EM ++ b = c :: (a2 ++ SM ++ n ++ EM ++ b) by simp,
      findMatch_cons]
    have ih := findMatch_isSome_pair a2 n b hLT
    obtain ⟨x, hx⟩ := Option.isSome_iff_exists.mp ih
    obtain ⟨p, nm, r⟩ := x
    simp only [List.append_assoc] at hx
    by_cases hp : SM <+: c :: (a2 ++ (SM ++ (n ++ (EM ++ b))))
    · cases hfe : findEnd ((c :: (a2 ++ (SM ++ (n ++ (EM ++ b))))).drop SM.length) with
      | none => simp [hp, hfe, hx]
      | some y => obtain ⟨nm2, r2⟩ := y; simp [hp, hfe]
    · simp [hp, hx]

/-- The name a successful `findEnd` captures is line-terminator-free and
holds no occurrence of the closing marker (non-greediness). -/
theorem findEnd_props : ∀ (v nm r : List Char), findEnd v = some (nm, r) →
    noLT nm ∧ ∀ k, ¬ EM <+: nm.drop k
  | [], nm, r => by simp [findEnd]
  | c :: cs, nm, r => by
    intro h
    rw [findEnd_cons] at h
    by_cases hp : EM.isPrefixOf (c :: cs) = true
    · rw [if_pos hp] at h
      obtain ⟨rfl, rfl⟩ : nm = [] ∧ (c :: cs).drop EM.length = r := by simpa using h
      refine ⟨by intro x hx; simp at hx, ?_⟩
      intro k h2
      rw [List.drop_nil] at h2
      exact absurd (List.prefix_nil.mp h2) (by decide)
    · rw [if_neg hp] at h
      by_cases hlt : isLineTerm c = true
      · rw [if_pos hlt] at h; cases h
      · rw [if_neg hlt] at h
        cases hrec : findEnd cs with
        | none => rw [hrec] at h; cases h
        | some x =>
          obtain ⟨nm2, r2⟩ := x
          rw [hrec] at h
          obtain ⟨rfl, rfl⟩ : nm = c :: nm2 ∧ r = r2 := by simpa using h.symm
          have ih := findEnd_props cs nm2 r hrec
          have hsp := findEnd_split cs nm2 r hrec
          have hltf : isLineTerm c = false := by simpa using hlt
          constructor
          · intro x hx
            rcases List.mem_cons.mp hx with rfl | hx2
            · exact hltf
            · exact ih.1 x hx2
          · intro k
            cases k with
            | zero =>
              simp only [List.drop_zero]
              intro hEM
              apply hp
              apply (ispOf_iff _ _).mpr
              rw [hsp, show c :: (nm2 ++ EM ++ r) = (c :: nm2) ++ (EM ++ r) by simp]
              exact pfx_ext hEM (EM ++ r)
            | succ k2 =>
              simpa [List.drop_succ_cons] using ih.2 k2

/-- `findEnd` failure is monotone under prefixes. -/
theorem findEnd_none_pfx : ∀ (x y : List Char), x <+: y → findEnd y = none → findEnd x = none
  | [], _, _, _ => rfl
  | c :: x2, y, hxy, hy => by
    obtain ⟨t, rfl⟩ := hxy
    rw [show (c :: x2) ++ t = c :: (x2 ++ t) from rfl, findEnd_cons] at hy
    rw [findEnd_cons]
    by_cases hp : EM.isPrefixOf (c :: x2) = true
    · exfalso
      have hpy : EM.isPrefixOf (c :: (x2 ++ t)) = true := by
        apply (ispOf_iff _ _).mpr
        have h2 := (ispOf_iff _ _).mp hp
        simpa using pfx_ext h2 t
      rw [if_pos hpy] at hy
      cases hy
    · rw [if_neg hp]
      by_cases hpy : EM.isPrefixOf (c :: (x2 ++ t)) = true
      · rw [if_pos hpy] at hy; cases hy
      · rw [if_neg hpy] at hy
        by_cases hlt : isLineTerm c = true
        · rw [if_pos hlt]
        · rw [if_neg hlt] at hy ⊢
          cases hrec : findEnd (x2 ++ t) with
          | some x => rw [hrec] at hy; obtain ⟨a, b⟩ := x; simp at hy
          | none => rw [findEnd_none_pfx x2 (x2 ++ t) (pfx_app x2 t) hrec]

/-- `findMatch` failure is monotone under prefixes. -/
theorem findMatch_none_pfx : ∀ (x y : List Char), x <+: y → findMatch y = none →
    findMatch x = none
  | [], _, _, _ => rfl
  | c :: x2, y, hxy, hy => by
    obtain ⟨t, rfl⟩ := hxy
    rw [show (c :: x2) ++ t = c :: (x2 ++ t) from rfl, findMatch_cons] at hy
    rw [findMatch_cons]
    by_cases hp : SM.isPrefixOf (c :: x2) = true
    · have hpy : SM.isPrefixOf (c :: (x2 ++ t)) = true := by
        apply (ispOf_iff _ _).mpr
        have h2 := (ispOf_iff _ _).mp hp
        simpa using pfx_ext h2 t
      rw [if_pos hpy] at hy
      rw [if_pos hp]
      cases hfe : findEnd ((c :: (x2 ++ t)).drop SM.length) with
      | some x => rw [hfe] at hy; obtain ⟨a, b⟩ := x; simp at hy
      | none =>
        rw [hfe] at hy
        have hfe2 : findEnd ((c :: x2).drop SM.length) = none :=
          findEnd_none_pfx _ _ (pfx_drop (pfx_app (c :: x2) t) SM.length) hfe
        rw [hfe2]
        cases hm2 : findMatch (x2 ++ t) with
        | some x => rw [hm2] at hy; obtain ⟨a, b, c2⟩ := x; simp at hy
        | none => rw [findMatch_none_pfx x2 (x2 ++ t) (pfx_app x2 t) hm2]
    · rw [if_neg hp]
      by_cases hpy : SM.isPrefixOf (c :: (x2 ++ t)) = true
      · rw [if_pos hpy] at hy
        cases hfe : findEnd ((c :: (x2 ++ t)).drop SM.length) with
        | some x => rw [hfe] at hy; obtain ⟨a, b⟩ := x; simp at hy
        | none =>
          rw [hfe] at hy
          cases hm2 : findMatch (x2 ++ t) with
          | some x => rw [hm2] at hy; obtain ⟨a, b, c2⟩ := x; simp at hy
          | none => rw [findMatch_none_pfx x2 (x2 ++ t) (pfx_app x2 t) hm2]
      · rw [if_neg hpy] at hy
        cases hm2 : findMatch (x2 ++ t) with
        | some x => rw [hm2] at hy; obtain ⟨a, b, c2⟩ := x; simp at hy
        | none => rw [findMatch_none_pfx x2 (x2 ++ t) (pfx_app x2 t) hm2]

/-- `findMatch` failure passes to the tail. -/
theorem findMatch_none_drop {c : Char} {cs : List Char} (h : findMatch (c :: cs) = none) :
    findMatch cs = none := by
  cases hm : findMatch cs with
  | none => rfl
  | some x =>
    obtain ⟨p, n, r⟩ := x
    rw [findMatch_cons] at h
    by_cases hp : SM.isPrefixOf (c :: cs) = true
    · rw [if_pos hp] at h
      cases hfe : findEnd ((c :: cs).drop SM.length) with
      | some y => rw [hfe] at h; obtain ⟨a, b⟩ := y; simp at h
      | none => rw [hfe, hm] at h; simp at h
    · rw [if_neg hp, hm] at h; simp at h

/-- `findMatch` failure is monotone under suffixes. -/
theorem findMatch_none_sfx : ∀ (s y : List Char), findMatch (s ++ y) = none →
    findMatch y = none
  | [], _, h => h
  | c :: s2, y, h => findMatch_none_sfx s2 y (findMatch_none_drop (by simpa using h))

/-- `findMatch` failure is monotone under contiguous sublists. -/
theorem findMatch_none_inside {y x : List Char} (hyx : y <:+: x) (h : findMatch x = none) :
    findMatch y = none := by
  obtain ⟨s, t, hst⟩ := hyx
  subst hst
  have h2 := findMatch_none_sfx s (y ++ t) (by simpa using h)
  exact findMatch_none_pfx y (y ++ t) (pfx_app y t) h2

/-- What a successful `findMatch` guarantees of its parts: nothing
decodable before the match, and a name free of closing markers and line
terminators. -/
theorem findMatch_parts : ∀ (w p n r : List Char), findMatch w = some (p, n, r) →
    findMatch p = none ∧ (∀ k, ¬ EM <+: n.drop k) ∧ noLT n
  | [], p, n, r => by simp [findMatch]
  | c :: cs, p, n, r => by
    intro h
    rw [findMatch_cons] at h
    by_cases hp : SM.isPrefixOf (c :: cs) = true
    · rw [if_pos hp] at h
      cases hfe : findEnd ((c :: cs).drop SM.length) with
      | some y =>
        obtain ⟨nm2, r2⟩ := y
        rw [hfe] at h
        obtain ⟨rfl, rfl, rfl⟩ : p = [] ∧ n = nm2 ∧ r = r2 := by simpa using h.symm
        have hprops := findEnd_props _ _ _ hfe
        exact ⟨rfl, hprops.2, hprops.1⟩
      | none =>
        rw [hfe] at h
        cases hm2 : findMatch cs with
        | none => rw [hm2] at h; cases h
        | some y =>
          obtain ⟨p2, nm2, r2⟩ := y
          rw [hm2] at h
          obtain ⟨rfl, rfl, rfl⟩ : p = c :: p2 ∧ n = nm2 ∧ r = r2 := by simpa using h.symm
          have ih := findMatch_parts cs p2 n r hm2
          refine ⟨?_, ih.2.1, ih.2.2⟩
          rw [findMatch_cons]
          have hp2 : p2 <+: cs := by
            have := findMatch_split cs p2 n r hm2
            exact ⟨SM ++ n ++ EM ++ r, by rw [this]; simp⟩
          by_cases hps : SM.isPrefixOf (c :: p2) = true
          · rw [if_pos hps]
            have hfe2 : findEnd ((c :: p2).drop SM.length) = none := by
              apply findEnd_none_pfx _ _ _ hfe
              apply pfx_drop
              exact (List.cons_prefix_cons).mpr ⟨rfl, hp2⟩
            rw [hfe2, ih.1]
          · rw [if_neg hps, ih.1]
    · rw [if_neg hp] at h
      cases hm2 : findMatch cs with
      | none => rw [hm2] at h; cases h
      | some y =>
        obtain ⟨p2, nm2, r2⟩ := y
        rw [hm2] at h
        obtain ⟨rfl, rfl, rfl⟩ : p = c :: p2 ∧ n = nm2 ∧ r = r2 := by simpa using h.symm
        have ih := findMatch_parts cs p2 n r hm2
        refine ⟨?_, ih.2.1, ih.2.2⟩
        rw [findMatch_cons]
        have hps : ¬ SM.isPrefixOf (c :: p2) = true := by
          intro hps
          apply hp
          apply (ispOf_iff _ _).mpr
          have hp2 : p2 <+: cs := by
            have := findMatch_split cs p2 n r hm2
            exact ⟨SM ++ n ++ EM ++ r, by rw [this]; simp⟩
          exact ((ispOf_iff _ _).mp hps).trans ((List.cons_prefix_cons).mpr ⟨rfl, hp2⟩)
        rw [if_neg hps, ih.1]

/-- `findMatch` fails exactly on the strings holding no decodable pair. -/
theorem noPair_iff_none (t : List Char) : NoPairIn t ↔ findMatch t = none := by
  constructor
  · intro hnp
    cases hm : findMatch t with
    | none => rfl
    | some x =>
      exfalso
      obtain ⟨p, n, r⟩ := x
      exact hnp ⟨p, n, r, findMatch_split t p n r hm, (findMatch_parts t p n r hm).2.2⟩
  · rintro hm ⟨a, n, b, heq, hLT⟩
    have hs := findMatch_isSome_pair a n b hLT
    rw [← heq, hm] at hs
    cases hs

instance (t : List Char) : Decidable (NoPairIn t) :=
  decidable_of_iff (findMatch t = none) (noPair_iff_none t).symm

instance (n : List Char) : Decidable (noLT n) := by
  unfold noLT; infer_instance

instance (pat l : List Char) (m : Nat) : Decidable (noOccBefore pat l m) := by
  unfold noOccBefore; infer_instance

def decWFsections : ∀ (ps : List (List Char × List Char)) (tr : List Char),
    Decidable (WFsections ps tr)
  | [], tr => by unfold WFsections; infer_instance
  | (g, n) :: rest, tr => by
    unfold WFsections
    have := decWFsections rest tr
    infer_instance

instance (ps : List (List Char × List Char)) (tr : List Char) :
    Decidable (WFsections ps tr) := decWFsections ps tr

/-- The scan decomposes its input: gaps, names, markers and trail
reassemble to it. -/
theorem scan_join (t : List Char) : mkText (scanSections t).1 (scanSections t).2 = t := by
  cases hm : findMatch t with
  | none => rw [scanSections_none hm]; rfl
  | some x =>
    obtain ⟨p, n, r⟩ := x
    rw [scanSections_some hm]
    have ih := scan_join r
    simp only [mkText]
    rw [ih]
    exact (findMatch_split t p n r hm).symm
termination_by t.length
decreasing_by exact findMatch_lt _ _ _ _ hm

/-- Parser correctness: on a well-formed decomposition the scan recovers
exactly the decomposition. -/
theorem scanSections_mkText : ∀ (ps : List (List Char × List Char)) (tr : List Char),
    WFsections ps tr → scanSections (mkText ps tr) = (ps, tr)
  | [], tr, hwf => scanSections_none ((noPair_iff_none tr).mp hwf)
  | (g, n) :: rest, tr, hwf => by
    obtain ⟨hg, hLT, hn, hrest⟩ := hwf
    have ih := scanSections_mkText rest tr hrest
    have hfe : findEnd (n ++ EM ++ mkText rest tr) = some (n, mkText rest tr) :=
      findEnd_exact n (mkText rest tr) hLT hn
    have hM : findMatch (SM ++ (n ++ EM ++ mkText rest tr)) = some ([], n, mkText rest tr) :=
      findMatch_atSM _ n _ hfe
    have hG := findMatch_gap g (SM ++ (n ++ EM ++ mkText rest tr))
      (by
        intro k hk
        have := hg k hk
        simpa [List.append_assoc] using this)
    have hMT : findMatch (mkText ((g, n) :: rest) tr) = some (g, n, mkText rest tr) := by
      rw [show mkText ((g, n) :: rest) tr = g ++ (SM ++ (n ++ EM ++ mkText rest tr)) by
        simp [mkText]]
      rw [hG, hM]
      simp
    rw [scanSections_some hMT, ih]

/-- Every gap the scan produces (including the trail) admits no match of
its own, and every name holds no closing marker. -/
theorem scan_pieces (t : List Char) :
    (∀ pr ∈ (scanSections t).1, findMatch pr.1 = none ∧ ∀ k, ¬ EM <+: pr.2.drop k) ∧
    findMatch (scanSections t).2 = none := by
  cases hm : findMatch t with
  | none => rw [scanSections_none hm]; exact ⟨by simp, hm⟩
  | some x =>
    obtain ⟨p, n, r⟩ := x
    rw [scanSections_some hm]
    have ih := scan_pieces r
    have hparts := findMatch_parts t p n r hm
    refine ⟨?_, ih.2⟩
    intro pr hpr
    rcases List.mem_cons.mp hpr with rfl | hpr2
    · exact ⟨hparts.1, hparts.2.1⟩
    · exact ih.1 pr hpr2
termination_by t.length
decreasing_by exact findMatch_lt _ _ _ _ hm

/-- Non-whitespace characters, those surviving any trim. -/
def nonWhite (c : Char) : Bool := !jsWhite c

/-- Trimming is a prefix of the whitespace-dropped list. -/
theorem trimJS_pfx_drop (l : List Char) : trimJS l <+: l.dropWhile jsWhite := by
  unfold trimJS
  have h1 : (l.dropWhile jsWhite).reverse.dropWhile jsWhite <:+ (l.dropWhile jsWhite).reverse :=
    List.dropWhile_suffix _
  have h2 := (List.reverse_prefix).mpr h1
  simpa using h2

/-- The trimmed list is a contiguous piece of the original. -/
theorem trimJS_piece (l : List Char) : trimJS l <:+: l :=
  ((trimJS_pfx_drop l).isInfix).trans (List.dropWhile_suffix jsWhite).isInfix

/-- The trimmed list is a sublist of the original. -/
theorem trimJS_sublist (l : List Char) : List.Sublist (trimJS l) l :=
  ((trimJS_pfx_drop l).sublist).trans (List.dropWhile_sublist _)

/-- Nothing decodable fits inside a name free of closing markers. -/
theorem no_match_in_name {n : List Char} (hne : ∀ k, ¬ EM <+: n.drop k) {y : List Char}
    (hyx : y <:+: n) : findMatch y = none := by
  cases hm : findMatch y with
  | none => rfl
  | some x =>
    exfalso
    obtain ⟨p, nm, r⟩ := x
    have hsp := findMatch_split y p nm r hm
    have hEM : EM <:+: y := ⟨p ++ SM ++ nm, r, by rw [hsp]⟩
    obtain ⟨s, t2, hst⟩ := hEM.trans hyx
    apply hne s.length
    rw [← hst, show s ++ EM ++ t2 = s ++ (EM ++ t2) by simp, List.drop_left]
    exact pfx_app EM t2

/-- Whitespace-filtering ignores a leading whitespace strip. -/
theorem filter_dropWhile (l : List Char) :
    (l.dropWhile jsWhite).filter nonWhite = l.filter nonWhite := by
  conv_rhs => rw [← List.takeWhile_append_dropWhile (p := jsWhite) (l := l)]
  rw [List.filter_append]
  have : (l.takeWhile jsWhite).filter nonWhite = [] := by
    apply List.filter_eq_nil_iff.mpr
    intro a ha
    have := List.mem_takeWhile_imp ha
    simp [nonWhite, this]
  rw [this, List.nil_append]

/-- Trimming does not change the non-whitespace characters. -/
theorem filter_trimJS (l : List Char) :
    (trimJS l).filter nonWhite = l.filter nonWhite := by
  unfold trimJS
  rw [List.filter_reverse, filter_dropWhile, List.filter_reverse, List.reverse_reverse,
    filter_dropWhile]

/-- A list trimming to nothing is all whitespace. -/
theorem trim_nil_filter {l : List Char} (h : trimJS l = []) : l.filter nonWhite = [] := by
  rw [← filter_trimJS, h, List.filter_nil]

/-- A non-empty body in which the regex finds no match decodes to one
verbatim paragraph. -/
theorem fTWS_some (t : List Char) :
    formatTextWithSections (some t) =
      (if t = [] then []
       else if hasSub SM t = false then [Segment.Paragraph t]
       else
         match scanSections t with
         | ([], _) => [Segment.Paragraph t]
         | ((g0, n0) :: rest, trail) =>
           let parts := paraOpt g0 ++ sectionParts n0 rest trail
           if parts = [] then [Segment.Paragraph t] else parts) := rfl

theorem fTWS_plain {s : List Char} (hne : s ≠ []) (hm : findMatch s = none) :
    formatTextWithSections (some s) = [Segment.Paragraph s] := by
  rw [fTWS_some, if_neg hne]
  by_cases hsub : hasSub SM s = false
  · rw [if_pos hsub]
  · rw [if_neg hsub, scanSections_none hm]

/-- Segment texts concatenate along appends. -/
theorem concatTexts_append (a b : List Segment) :
    concatTexts (a ++ b) = concatTexts a ++ concatTexts b := by
  simp [concatTexts]

theorem headOpt_sub (n : List Char) : List.Sublist (concatTexts (headOpt n)) n := by
  unfold headOpt
  by_cases h : trimJS n = []
  · simp [h, concatTexts]
  · simpa [h, concatTexts, segText] using trimJS_sublist n

theorem paraOpt_sub (g : List Char) : List.Sublist (concatTexts (paraOpt g)) g := by
  unfold paraOpt
  by_cases h : trimJS g = []
  · simp [h, concatTexts]
  · simpa [h, concatTexts, segText] using trimJS_sublist g

theorem headOpt_filter (n : List Char) :
    (concatTexts (headOpt n)).filter nonWhite = n.filter nonWhite := by
  unfold headOpt
  by_cases h : trimJS n = []
  · simp [h, concatTexts, (trim_nil_filter h).symm]
  · simp [h, concatTexts, segText, filter_trimJS]

theorem paraOpt_filter (g : List Char) :
    (concatTexts (paraOpt g)).filter nonWhite = g.filter nonWhite := by
  unfold paraOpt
  by_cases h : trimJS g = []
  · simp [h, concatTexts, (trim_nil_filter h).symm]
  · simp [h, concatTexts, segText, filter_trimJS]

theorem headOpt_mem {n : List Char} {s : Segment} (h : s ∈ headOpt n) :
    s = Segment.Heading (trimJS n) ∧ trimJS n ≠ [] := by
  unfold headOpt at h
  by_cases hn : trimJS n = []
  · simp [hn] at h
  · simp [hn] at h
    exact ⟨h, hn⟩

theorem paraOpt_mem {g : List Char} {s : Segment} (h : s ∈ paraOpt g) :
    s = Segment.Paragraph (trimJS g) ∧ trimJS g ≠ [] := by
  unfold paraOpt at h
  by_cases hg : trimJS g = []
  · simp [hg] at h
  · simp [hg] at h
    exact ⟨h, hg⟩

/-- The second pass over the matches: its texts are a sublist of the
corresponding stretch of input, its non-whitespace content is exactly the
non-marker non-whitespace content of that stretch, and (given that no
piece re-decodes) each emitted segment's text re-decodes to itself as one
paragraph. -/
theorem sectionParts_props : ∀ (rest : List (List Char × List Char)) (n tr : List Char),
    List.Sublist (concatTexts (sectionParts n rest tr)) (n ++ (EM ++ mkText rest tr)) ∧
    ((n ++ erasedChain rest tr).filter nonWhite
      = (concatTexts (sectionParts n rest tr)).filter nonWhite) ∧
    (findMatch (trimJS n) = none →
      (∀ pr ∈ rest, findMatch (trimJS pr.1) = none ∧ findMatch (trimJS pr.2) = none) →
      findMatch (trimJS tr) = none →
      ∀ s ∈ sectionParts n rest tr,
        formatTextWithSections (some (segText s)) = [Segment.Paragraph (segText s)])
  | [], n, tr => by
    refine ⟨?_, ?_, ?_⟩
    · rw [show sectionParts n [] tr = headOpt n ++ paraOpt tr from rfl, concatTexts_append]
      exact (headOpt_sub n).append (((paraOpt_sub tr).trans
        (List.sublist_append_right EM tr)).trans (by simp [mkText]))
    · rw [show sectionParts n [] tr = headOpt n ++ paraOpt tr from rfl, concatTexts_append,
        show erasedChain [] tr = tr from rfl, List.filter_append, List.filter_append,
        headOpt_filter, paraOpt_filter]
    · intro hn _ htr s hs
      rcases List.mem_append.mp hs with hh | hp
      · obtain ⟨rfl, hne⟩ := headOpt_mem hh
        exact fTWS_plain hne hn
      · obtain ⟨rfl, hne⟩ := paraOpt_mem hp
        exact fTWS_plain hne htr
  | (g, n2) :: rest, n, tr => by
    obtain ⟨ihSub, ihFil, ihMem⟩ := sectionParts_props rest n2 tr
    refine ⟨?_, ?_, ?_⟩
    · rw [show sectionParts n ((g, n2) :: rest) tr
          = headOpt n ++ (paraOpt g ++ sectionParts n2 rest tr) by simp [sectionParts],
        concatTexts_append, concatTexts_append]
      refine (headOpt_sub n).append ?_
      rw [show mkText ((g, n2) :: rest) tr = g ++ (SM ++ (n2 ++ (EM ++ mkText rest tr))) by
        simp [mkText]]
      refine List.Sublist.trans ?_ (List.sublist_append_right EM _)
      refine (paraOpt_sub g).append ?_
      exact ihSub.trans (List.sublist_append_right SM _)
    · rw [show sectionParts n ((g, n2) :: rest) tr
          = headOpt n ++ (paraOpt g ++ sectionParts n2 rest tr) by simp [sectionParts],
        concatTexts_append, concatTexts_append,
        show erasedChain ((g, n2) :: rest) tr = g ++ n2 ++ erasedChain rest tr from rfl]
      simp only [List.filter_append, headOpt_filter, paraOpt_filter]
      simp only [List.filter_append, List.append_assoc] at ihFil ⊢
      rw [ihFil]
    · intro hn hrest htr s hs
      rw [show sectionParts n ((g, n2) :: rest) tr
          = headOpt n ++ (paraOpt g ++ sectionParts n2 rest tr) by simp [sectionParts]] at hs
      rcases List.mem_append.mp hs with hh | hgp
      · obtain ⟨rfl, hne⟩ := headOpt_mem hh
        exact fTWS_plain hne hn
      · rcases List.mem_append.mp hgp with hp | hrec
        · obtain ⟨rfl, hne⟩ := paraOpt_mem hp
          exact fTWS_plain hne (hrest (g, n2) (by simp)).1
        · exact ihMem (hrest (g, n2) (by simp)).2
            (fun pr hpr => hrest pr (by simp [hpr])) htr s hrec

/-- The opening marker is found by `includes` wherever it stands. -/
theorem hasSub_mk : ∀ (a b : List Char), hasSub SM (a ++ SM ++ b) = true
  | [], b => by
    obtain ⟨c, cs, hcs⟩ : ∃ c cs, SM ++ b = c :: cs := by
      cases h : SM ++ b with
      | nil => exact absurd (congrArg List.length h) (by simp [SM])
      | cons c cs => exact ⟨c, cs, rfl⟩
    rw [show ([] : List Char) ++ SM ++ b = SM ++ b by simp, hcs,
      show hasSub SM (c :: cs) = (SM.isPrefixOf (c :: cs) || hasSub SM cs) from rfl,
      ← hcs, ispOf_app]
    simp
  | c :: a2, b => by
    rw [show (c :: a2) ++ SM ++ b = c :: (a2 ++ SM ++ b) by simp,
      show hasSub SM (c :: (a2 ++ SM ++ b))
        = (SM.isPrefixOf (c :: (a2 ++ SM ++ b)) || hasSub SM (a2 ++ SM ++ b)) from rfl,
      hasSub_mk a2 b]
    simp

/-- C1 (amended): a body consisting of one or more well-formed paired
section markers with their gaps decodes to exactly the segments §4.4
prescribes — the leading paragraph (when its trim is non-empty), then per
marker a heading (when the trimmed name is non-empty) followed by the
trimmed between-marker paragraph (when non-empty) — except that when that
prescription is empty the decoder instead falls back to a single
paragraph holding the entire original string. -/
theorem c1_marker_decode (ps : List (List Char × List Char)) (tr : List Char)
    (hwf : WFsections ps tr) (hne : ps ≠ []) :
    formatTextWithSections (some (mkText ps tr)) =
      (if claimSegments ps tr = [] then [Segment.Paragraph (mkText ps tr)]
       else claimSegments ps tr) := by
  obtain ⟨⟨g, n⟩, rest, rfl⟩ : ∃ gn rest, ps = gn :: rest := by
    cases ps with
    | nil => exact absurd rfl hne
    | cons a b => exact ⟨a, b, rfl⟩
  have hscan := scanSections_mkText ((g, n) :: rest) tr hwf
  have htne : mkText ((g, n) :: rest) tr ≠ [] := by
    intro h
    have := congrArg List.length h
    simp [mkText, SM, EM] at this
  have hsub : hasSub SM (mkText ((g, n) :: rest) tr) = true := by
    rw [show mkText ((g, n) :: rest) tr = g ++ SM ++ (n ++ EM ++ mkText rest tr) by
      simp [mkText]]
    exact hasSub_mk g (n ++ EM ++ mkText rest tr)
  rw [fTWS_some, if_neg htne, if_neg (by simp [hsub]), hscan]
  rfl

/-- C1 counterexample: the body made of a single marker with empty name
and no surrounding text is a well-formed one-marker decomposition for
which §4.4 prescribes the empty segment sequence, yet the decoder falls
back to one paragraph holding the whole raw string. -/
theorem c1_fallback_cex :
    mkText [(([] : List Char), ([] : List Char))] []
      = ("##SECTION_START####SECTION_END##").data ∧
    WFsections [(([] : List Char), ([] : List Char))] [] ∧
    claimSegments [(([] : List Char), ([] : List Char))] [] = [] ∧
    formatTextWithSections (some (("##SECTION_START####SECTION_END##").data))
      = [Segment.Paragraph (("##SECTION_START####SECTION_END##").data)] ∧
    formatTextWithSections (some (("##SECTION_START####SECTION_END##").data))
      ≠ claimSegments [(([] : List Char), ([] : List Char))] [] := by
  refine ⟨by decide, by decide, by decide, by decide, by decide⟩

/-- C1 witness: the spec's round-trip example, through the theorem. -/
theorem c1_marker_decode_witness :
    WFsections [(([] : List Char), ("Intro").data), ((" hello ").data, ("Methods").data)]
      ((" world").data) ∧
    formatTextWithSections (some (mkText
      [(([] : List Char), ("Intro").data), ((" hello ").data, ("Methods").data)]
      ((" world").data))) =
      [Segment.Heading (("Intro").data), Segment.Paragraph (("hello").data),
       Segment.Heading (("Methods").data), Segment.Paragraph (("world").data)] :=
  ⟨by decide, by
    rw [c1_marker_decode _ _ (by decide) (by decide)]
    decide⟩

/-- C8: an absent or empty body decodes to no segments; a non-empty body
holding no opening section marker decodes to exactly one paragraph
carrying the entire original string verbatim. -/
theorem c8_plain_decode (t : List Char) (hne : t ≠ []) (hnm : hasSub SM t = false) :
    formatTextWithSections none = [] ∧
    formatTextWithSections (some []) = [] ∧
    formatTextWithSections (some t) = [Segment.Paragraph t] := by
  refine ⟨rfl, rfl, ?_⟩
  rw [fTWS_some, if_neg hne, if_pos hnm]

/-- C8 witness. -/
theorem c8_plain_decode_witness :
    formatTextWithSections (some (("no markers  here\n at all").data)) =
      [Segment.Paragraph (("no markers  here\n at all").data)] :=
  (c8_plain_decode (("no markers  here\n at all").data) (by decide) (by decide)).2.2

theorem paraOpt_eq_nil {g : List Char} (h : paraOpt g = []) : trimJS g = [] := by
  by_cases hg : trimJS g = []
  · exact hg
  · unfold paraOpt at h
    rw [if_neg hg] at h
    cases h

/-- Re-decoding is trivial for a piece in which the scan finds nothing. -/
theorem trim_none_of_none {l : List Char} (h : findMatch l = none) :
    findMatch (trimJS l) = none :=
  findMatch_none_inside (trimJS_piece l) h

/-- C4 (amended): decoding loses no non-whitespace non-marker character
and reorders nothing — the concatenated segment texts are a sublist of
the original body, and every non-whitespace character of the body outside
the matched markers survives into them, in order; moreover a second
decoding pass over any emitted segment's text returns that text unchanged
as a single paragraph. (Whitespace adjacent to markers is dropped by the
prescribed trimming, so character-exact preservation fails; see the
counterexample.) -/
theorem c4_content_preservation (t : List Char) :
    List.Sublist (concatTexts (formatTextWithSections (some t))) t ∧
    List.Sublist ((eraseMarkers t).filter nonWhite)
      (concatTexts (formatTextWithSections (some t))) ∧
    ∀ s ∈ formatTextWithSections (some t),
      formatTextWithSections (some (segText s)) = [Segment.Paragraph (segText s)] := by
  by_cases ht : t = []
  · subst ht
    exact ⟨by decide, by decide, by simp [formatTextWithSections]⟩
  · cases hscan : (scanSections t).1 with
    | nil =>
      have hm : findMatch t = none := by
        cases hm2 : findMatch t with
        | none => rfl
        | some x =>
          obtain ⟨p, n, r⟩ := x
          rw [scanSections_some hm2] at hscan
          simp at hscan
      have htr : (scanSections t).2 = t := by
        rw [scanSections_none hm]
      have hout := fTWS_plain ht hm
      rw [hout]
      refine ⟨by simp [concatTexts, segText], ?_, ?_⟩
      · rw [show eraseMarkers t = erasedChain (scanSections t).1 (scanSections t).2 from rfl,
          hscan, htr, show erasedChain [] t = t from rfl]
        simpa [concatTexts, segText] using List.filter_sublist (p := nonWhite) t
      · intro s hs
        simp only [List.mem_singleton] at hs
        subst hs
        exact hout
    | cons gn rest =>
      obtain ⟨g, n⟩ := gn
      have hjoin := scan_join t
      have hpieces := scan_pieces t
      rw [hscan] at hjoin hpieces
      obtain ⟨hPs, hTr⟩ := hpieces
      have hgn := hPs (g, n) (by simp)
      have hprops := sectionParts_props rest n (scanSections t).2
      have hsub : hasSub SM t = true := by
        rw [← hjoin, show mkText ((g, n) :: rest) (scanSections t).2
            = g ++ SM ++ (n ++ EM ++ mkText rest (scanSections t).2) by simp [mkText]]
        exact hasSub_mk _ _
      have hEq : formatTextWithSections (some t) =
          (if paraOpt g ++ sectionParts n rest (scanSections t).2 = []
           then [Segment.Paragraph t]
           else paraOpt g ++ sectionParts n rest (scanSections t).2) := by
        rw [fTWS_some, if_neg ht, if_neg (by simp [hsub]),
          show scanSections t = ((g, n) :: rest, (scanSections t).2) from by
            rw [← hscan]]
      have hmem : ∀ s ∈ paraOpt g ++ sectionParts n rest (scanSections t).2,
          formatTextWithSections (some (segText s)) = [Segment.Paragraph (segText s)] := by
        intro s hs
        rcases List.mem_append.mp hs with hp | hsp
        · obtain ⟨rfl, hne⟩ := paraOpt_mem hp
          exact fTWS_plain hne (trim_none_of_none hgn.1)
        · refine hprops.2.2 (no_match_in_name hgn.2 (trimJS_piece n)) ?_
            (trim_none_of_none hTr) s hsp
          intro pr hpr
          have h2 := hPs pr (by simp [hpr])
          exact ⟨trim_none_of_none h2.1, no_match_in_name h2.2 (trimJS_piece pr.2)⟩
      have hErase : eraseMarkers t
          = g ++ (n ++ erasedChain rest (scanSections t).2) := by
        rw [show eraseMarkers t = erasedChain (scanSections t).1 (scanSections t).2 from rfl,
          hscan]
        simp [erasedChain]
      by_cases hparts : paraOpt g ++ sectionParts n rest (scanSections t).2 = []
      · rw [hEq, if_pos hparts]
        obtain ⟨hg0, hsp0⟩ := List.append_eq_nil.mp hparts
        refine ⟨by simp [concatTexts, segText], ?_, ?_⟩
        · rw [hErase]
          have h1 : (g ++ (n ++ erasedChain rest (scanSections t).2)).filter nonWhite = [] := by
            rw [List.filter_append, trim_nil_filter (paraOpt_eq_nil hg0), hprops.2.1, hsp0]
            simp [concatTexts]
          rw [h1]
          exact List.nil_sublist _
        · intro s hs
          simp only [List.mem_singleton] at hs
          subst hs
          simp only [segText]
          rw [hEq, if_pos hparts]
      · rw [hEq, if_neg hparts]
        refine ⟨?_, ?_, hmem⟩
        · rw [concatTexts_append]
          have hsubl : List.Sublist
              (concatTexts (paraOpt g) ++ concatTexts (sectionParts n rest (scanSections t).2))
              (g ++ (SM ++ (n ++ (EM ++ mkText rest (scanSections t).2)))) := by
            refine (paraOpt_sub g).append ?_
            refine List.Sublist.trans ?_ (List.sublist_append_right SM _)
            simpa [List.append_assoc] using hprops.1
          have heq2 : g ++ (SM ++ (n ++ (EM ++ mkText rest (scanSections t).2))) = t := by
            conv_rhs => rw [← hjoin]
            simp [mkText]
          rwa [heq2] at hsubl
        · rw [hErase, List.filter_append, hprops.2.1, ← paraOpt_filter g,
            concatTexts_append, ← List.filter_append]
          exact List.filter_sublist _

/-- C4 counterexample: the prescribed trimming drops whitespace around
the content, so the concatenated segment texts do not retain every
non-marker character of the body in order — here the non-marker
characters "A h " shrink to "Ah". -/
theorem c4_trim_loss_cex :
    eraseMarkers (("##SECTION_START##A##SECTION_END## h ").data) = ("A h ").data ∧
    concatTexts (formatTextWithSections
      (some (("##SECTION_START##A##SECTION_END## h ").data))) = ("Ah").data ∧
    ¬ List.Sublist (eraseMarkers (("##SECTION_START##A##SECTION_END## h ").data))
        (concatTexts (formatTextWithSections
          (some (("##SECTION_START##A##SECTION_END## h ").data)))) := by
  refine ⟨by decide, by decide, by decide⟩

/-- Every character the whitespace pass emits is a space or is not
whitespace at all. -/
theorem collapseAux_mem : ∀ (b : Bool) (l : List Char) (c : Char),
    c ∈ collapseAux b l → c = ' ' ∨ jsWhite c = false
  | _, [], c => by simp [collapseAux]
  | b, a :: as, c => by
    intro h
    simp only [collapseAux] at h
    by_cases hw : jsWhite a = true
    · rw [if_pos hw] at h
      rcases List.mem_append.mp h with h1 | h2
      · cases b with
        | true => simp at h1
        | false =>
          left
          simpa using h1
      · exact collapseAux_mem true as c h2
    · rw [if_neg hw] at h
      rcases List.mem_cons.mp h with rfl | h2
      · right
        simpa using hw
      · exact collapseAux_mem false as c h2

/-- C3 (code behaviour): because the whitespace pass runs after the
keyword pass, every inserted `"\n\n"` is itself collapsed to a single
space — the formatter's output never contains a line break (every output
character is a space or non-whitespace), so no paragraph break before
"Methods"/"Results" etc. survives; absent and empty input yield the empty
string without raising; on an already single-spaced abstract the output
is the collapsed text with no break inserted. -/
theorem c3_breaks_collapsed :
    (∀ a c, c ∈ formatAbstract (some a) → c = ' ' ∨ jsWhite c = false) ∧
    formatAbstract none = [] ∧
    formatAbstract (some []) = [] ∧
    formatAbstract (some (("Background given.  Methods were used.").data))
      = ("Background given. Methods were used.").data := by
  refine ⟨?_, rfl, by decide, by decide⟩
  intro a c hc
  have heq : formatAbstract (some a)
      = if a = [] then [] else trimJS (collapseWS (insertBreaks false a)) := rfl
  rw [heq] at hc
  by_cases ha : a = []
  · rw [if_pos ha] at hc
    simp at hc
  · rw [if_neg ha] at hc
    have hc2 : c ∈ collapseWS (insertBreaks false a) := (trimJS_sublist _).subset hc
    exact collapseAux_mem false _ c hc2

/-- C9: a submission whose trimmed query is empty clears the results, the
total count and the active query, surfaces no alert and issues no search
request, whatever the ambient state and however the (never-issued)
request would have settled. -/
theorem c9_empty_query (st : AppState) (q : String) (o : SearchOutcome)
    (h : trimS q = "") :
    handleSearch st q o =
      ({ st with results := [], totalResults := 0, query := "" }, none, []) := by
  simp [handleSearch, h]

/-- C9 witness. -/
theorem c9_empty_query_witness :
    handleSearch
      { query := "covid", results := [], loading := false, selectedDoc := none,
        showDocument := false, totalResults := 7 } "  " (.err { status := none, message := "" })
      = ({ query := "", results := [], loading := false, selectedDoc := none,
           showDocument := false, totalResults := 0 }, none, []) :=
  c9_empty_query _ "  " _ (by decide)

/-- C10: an input whose trimmed value is shorter than 2 characters clears
the suggestion list, hides the panel and schedules nothing, so the
in-flight set is untouched and a subsequent timer event issues no
autocomplete call. -/
theorem c10_short_input (st : BarState) (q : List Char)
    (h : (trimJS q).length < 2) :
    barStep st (.input q) =
      { st with query := q, pendingTimer := none,
                suggestions := [], showSuggestions := false } ∧
    (barStep st (.input q)).inFlight = st.inFlight ∧
    barStep (barStep st (.input q)) .fire = barStep st (.input q) := by
  refine ⟨by simp [barStep, h], by simp [barStep, h], ?_⟩
  simp [barStep, h]

/-- C10 witness. -/
theorem c10_short_input_witness :
    barStep initBar (.input (" a ").data) =
      { initBar with query := (" a ").data, pendingTimer := none,
                     suggestions := [], showSuggestions := false } :=
  (c10_short_input initBar ((" a ").data) (by decide)).1

/-- C6: the loading flag is false when a search or a document open
completes, on every exit path — unconditionally on the success and
failure paths, and on the early empty-query return (which never touches
the flag) provided the controller was not already loading. -/
theorem c6_loading_reset (st : AppState) (q : String) (o : SearchOutcome)
    (d : DocOutcome) (h : st.loading = false) :
    (handleSearch st q o).1.loading = false ∧
    (handleSelectDocument st d).1.loading = false := by
  constructor
  · unfold handleSearch
    split
    · simpa using h
    · cases o with
      | ok r => simp
      | err e => simp
  · cases d with
    | ok doc => simp [handleSelectDocument]
    | err => simp [handleSelectDocument]

/-- C6 witness. -/
theorem c6_loading_reset_witness :
    (handleSearch
      { query := "", results := [], loading := false, selectedDoc := none,
        showDocument := false, totalResults := 0 } "covid"
      (.ok { results := none, total := none, query := "" })).1.loading = false :=
  (c6_loading_reset _ "covid" (.ok { results := none, total := none, query := "" })
    .err (by decide)).1

/-- C7: opening a document (whatever the outcome) and then invoking the
back-to-results transition discards the held document, switches the view
back to results mode, and leaves the result list, the total count and the
active query exactly as they were before the document was opened. -/
theorem c7_back_to_results (st : AppState) (o : DocOutcome) :
    (handleBackToResults (handleSelectDocument st o).1).results = st.results ∧
    (handleBackToResults (handleSelectDocument st o).1).totalResults = st.totalResults ∧
    (handleBackToResults (handleSelectDocument st o).1).query = st.query ∧
    (handleBackToResults (handleSelectDocument st o).1).showDocument = false ∧
    (handleBackToResults (handleSelectDocument st o).1).selectedDoc = none := by
  cases o with
  | ok d => simp [handleBackToResults, handleSelectDocument]
  | err => simp [handleBackToResults, handleSelectDocument]

/-- C5: a failed search clears the result list and the total count, and
the alert is classified by the failure's cause — HTTP 503 gives the
backend-not-ready message, HTTP 404 the backend-unreachable message, and
anything else the generic failure message — three pairwise distinct
outcomes. -/
theorem c5_failure_classification (st : AppState) (q : String) (e : APIError)
    (h : trimS q ≠ "") :
    (handleSearch st q (.err e)).1.results = [] ∧
    (handleSearch st q (.err e)).1.totalResults = 0 ∧
    (e.status = some 503 →
      (handleSearch st q (.err e)).2.1 =
        some "Search engine is not ready. Please check if the backend server is running and initialized.") ∧
    (e.status = some 404 →
      (handleSearch st q (.err e)).2.1 =
        some "Backend API not found. Please ensure the backend server is running on port 8000.") ∧
    (e.status ≠ some 503 → e.status ≠ some 404 →
      (handleSearch st q (.err e)).2.1 =
        some ("Search failed: " ++ (if e.message = "" then "Unknown error" else e.message))) ∧
    (∀ m : String,
      ("Search failed: " ++ m) ≠
        "Search engine is not ready. Please check if the backend server is running and initialized." ∧
      ("Search failed: " ++ m) ≠
        "Backend API not found. Please ensure the backend server is running on port 8000.") ∧
    ("Search engine is not ready. Please check if the backend server is running and initialized."
      : String) ≠
      "Backend API not found. Please ensure the backend server is running on port 8000." := by
  refine ⟨by simp [handleSearch, h], by simp [handleSearch, h], ?_, ?_, ?_, ?_, by decide⟩
  · intro hs
    simp [handleSearch, h, hs]
  · intro hs
    simp [handleSearch, h, hs]
  · intro h1 h2
    simp [handleSearch, h, h1, h2]
  · intro m
    constructor
    · intro hEq
      have h2 := congrArg String.data hEq
      rw [String.data_append] at h2
      have h3 := congrArg (List.take ("Search failed: ").data.length) h2
      rw [List.take_left] at h3
      exact absurd h3 (by decide)
    · intro hEq
      have h2 := congrArg String.data hEq
      rw [String.data_append] at h2
      have h3 := congrArg (List.take ("Search failed: ").data.length) h2
      rw [List.take_left] at h3
      exact absurd h3 (by decide)

/-- C5 witness: a 503 failure at a concrete state. -/
theorem c5_failure_classification_witness :
    (handleSearch
      { query := "", results := [], loading := false, selectedDoc := none,
        showDocument := false, totalResults := 0 } "covid"
      (.err { status := some 503, message := "boom" })).2.1 =
      some "Search engine is not ready. Please check if the backend server is running and initialized." :=
  (c5_failure_classification _ "covid" { status := some 503, message := "boom" }
    (by decide)).2.2.1 (by decide)

/-- One step preserves the debounce guard invariant. -/
theorem barStep_pending (st : BarState) (e : BarEvent)
    (h : pendingMatchesInput st) : pendingMatchesInput (barStep st e) := by
  cases e with
  | input q =>
    intro p hp
    by_cases hl : (trimJS q).length < 2
    · simp [barStep, hl] at hp
    · simp only [barStep, if_neg hl] at hp
      simp only [Option.some.injEq] at hp
      simp [barStep, if_neg hl, ← hp]
  | fire =>
    intro p hp
    cases hpt : st.pendingTimer with
    | none => simp [barStep, hpt] at hp
    | some p2 => simp [barStep, hpt] at hp
  | respond p2 results ok =>
    intro p hp
    have hq : (barStep st (.respond p2 results ok)).query = st.query := by
      by_cases hin : p2 ∈ st.inFlight
      · cases ok <;> simp [barStep, hin]
      · simp [barStep, hin]
    have hpt : (barStep st (.respond p2 results ok)).pendingTimer = st.pendingTimer := by
      by_cases hin : p2 ∈ st.inFlight
      · cases ok <;> simp [barStep, hin]
      · simp [barStep, hin]
    rw [hq]
    rw [hpt] at hp
    exact h p hp

/-- C2 (amended): the staleness guard acts at issue time, not at arrival
time — in every reachable SearchBar state a scheduled autocomplete fetch
carries exactly the current trimmed input (a keystroke before the 300 ms
timer fires cancels the scheduled fetch), but a response already in
flight is committed unconditionally when it arrives, so a response to a
superseded prefix can overwrite the suggestion list (see the
counterexample). -/
theorem c2_issue_time_guard (evs : List BarEvent) : pendingMatchesInput (runBar evs) := by
  have hgen : ∀ (l : List BarEvent) (st : BarState), pendingMatchesInput st →
      pendingMatchesInput (l.foldl barStep st) := by
    intro l
    induction l with
    | nil => intro st h; exact h
    | cons e l2 ih =>
      intro st h
      exact ih (barStep st e) (barStep_pending st e h)
  exact hgen evs initBar (by intro p hp; cases hp)

/-- C2 counterexample: a response whose originating prefix "ab" arrives
after the input has moved on to "abc"; the code commits it anyway, so the
suggestion list is overwritten by a suggestion set whose originating
prefix differs from the then-current trimmed input. -/
theorem c2_stale_overwrite_cex :
    (runBar [.input (("ab").data), .fire, .input (("abc").data),
      .respond (("ab").data) [("apple").data] true]).commits
      = [((("ab").data), (("abc").data))] ∧
    (("ab").data) ≠ (("abc").data) ∧
    (runBar [.input (("ab").data), .fire, .input (("abc").data),
      .respond (("ab").data) [("apple").data] true]).suggestions = [("apple").data] ∧
    (runBar [.input (("ab").data), .fire, .input (("abc").data),
      .respond (("ab").data) [("apple").data] true]).showSuggestions = true ∧
    trimJS (runBar [.input (("ab").data), .fire, .input (("abc").data),
      .respond (("ab").data) [("apple").data] true]).query = ("abc").data := by
  refine ⟨by decide, by decide, by decide, by decide, by decide⟩

/-- C2 witness: after a single long-enough keystroke the scheduled fetch
carries the current trimmed input, by the invariant. -/
theorem c2_issue_time_guard_witness :
    (runBar [.input (("ab").data)]).pendingTimer = some (("ab").data) ∧
    (("ab").data) = trimJS (runBar [.input (("ab").data)]).query :=
  ⟨by decide, c2_issue_time_guard [.input (("ab").data)] (("ab").data) (by decide)⟩
